import Mathlib

/-!
Verification development for the IntelliVox voice-assistant front end.

The definitions below are shallow embeddings of the voice interaction core:

* `VoiceSession` — the session coordinator of `src/hooks/useVoiceSession.ts`
  (finite-state machine over idle/listening/processing/speaking, microphone
  gating, delayed release timers).
* `SpeechRec` — the recognition engine of
  `src/hooks/useStableSpeechRecognition.ts` (v2.0, mobile-safe variant):
  transcript assembly, deduplication, silence timer, restart logic.
* `Synth` — the synthesis engine of `src/hooks/useStableSpeechSynthesis.ts`:
  text chunking, the speak/stop lifecycle and its callbacks.
* `ChatRetry` — the regenerate path of `src/pages/Chat.tsx` together with the
  server-side temperature rule of the chat edge function.

JavaScript strings are embedded as `List Char` (`Str`) so that the string
primitives the source uses (`trim`, `slice`, `lastIndexOf`, `split`,
`startsWith`, `endsWith`, `toLowerCase`) can be given exact executable
definitions.  `setTimeout` timers are modelled as queues of timer identifiers:
timers created with the same delay fire in creation order, and clearing a
timeout removes one identifier from the queue.  Event-driven code is modelled
as a step function over explicit event lists, with each callback assumed to
run at a quiescent point of the event loop (single-threaded semantics).
-/

/-- JavaScript strings are sequences of characters. -/
abbrev Str := List Char

namespace JsStr

/-- Character class used by JavaScript `String.prototype.trim`. -/
def isWs (c : Char) : Bool := c.isWhitespace

/-- Drop trailing whitespace, as the right half of JavaScript `trim`. -/
def dropRightWs (l : Str) : Str := (l.reverse.dropWhile isWs).reverse

/-- JavaScript `String.prototype.trim`: drop whitespace from both ends. -/
def trim (l : Str) : Str := dropRightWs (l.dropWhile isWs)

/-- A string consisting of whitespace only (this includes the empty string). -/
def wsOnly (l : Str) : Bool := l.all isWs

/-- JavaScript `s.split(sep)` for a single-character separator: split at every
occurrence of the separator, keeping empty fragments. -/
def jsSplit (sep : Char) : Str → List Str
  | [] => [[]]
  | c :: rest =>
    let r := jsSplit sep rest
    if c = sep then [] :: r
    else match r with
      | [] => [[c]]
      | w :: ws => (c :: w) :: ws

/-- JavaScript `arr.join(sep)` for a single-character separator. -/
def jsJoin (sep : Char) : List Str → Str
  | [] => []
  | [w] => w
  | w :: ws => w ++ sep :: jsJoin sep ws

/-- Last index of character `c` in `l` (no `fromIndex` bound). -/
def lastIdxIn (l : Str) (c : Char) : Option Nat :=
  match l with
  | [] => none
  | a :: t =>
    match lastIdxIn t c with
    | some j => some (j + 1)
    | none => if a = c then some 0 else none

/-- JavaScript `s.lastIndexOf(c, fromIdx)`: the largest index `i ≤ fromIdx`
with `l[i] = c`, as an `Option` (JavaScript returns `-1` for `none`). -/
def jsLastIndexOf (l : Str) (c : Char) (fromIdx : Nat) : Option Nat :=
  lastIdxIn (l.take (fromIdx + 1)) c

/-- Comparison `idx > n` under JavaScript semantics where a missing index is
`-1` (so `none > n` is false for natural `n`). -/
def idxGt (o : Option Nat) (n : Nat) : Bool :=
  match o with
  | some i => n < i
  | none => false

end JsStr

/-! ## Session coordinator (`src/hooks/useVoiceSession.ts`) -/

namespace VoiceSession

/-- `VoiceSessionState` from `useVoiceSession.ts`. -/
inductive SState
  | idle
  | listening
  | processing
  | speaking
deriving DecidableEq, Repr

open SState

/-- Hook configuration: `postSpeechDelay` is left abstract (all release
timers share it, so they fire in creation order), `autoResumeListening`
defaults to `false` in the source and is set to `true` by `Home.tsx`. -/
structure Config where
  autoResumeListening : Bool
deriving DecidableEq, Repr

/-- The mutable state of the hook: React state plus the refs.  Release
timeouts are a FIFO queue of identifiers; `refTimer` is the value of
`micGateTimeoutRef` and `nextId` generates fresh timer identifiers. -/
structure VS where
  session : SState
  micGated : Bool
  outputActive : Bool
  pending : Option SState
  locked : Bool
  timers : List Nat
  refTimer : Option Nat
  nextId : Nat
deriving DecidableEq, Repr

/-- Initial hook state. -/
def initVS : VS :=
  { session := idle, micGated := false, outputActive := false,
    pending := none, locked := false, timers := [], refTimer := none,
    nextId := 0 }

/-- The `validTransitions` adjacency table of `transitionTo`. -/
def validTransition (fromS toS : SState) : Bool :=
  match fromS with
  | idle => toS = listening || toS = processing
  | listening => toS = idle || toS = processing || toS = speaking
  | processing => toS = speaking || toS = idle || toS = listening
  | speaking => toS = idle || toS = listening || toS = processing

/-- `gateMicrophone`: clear any pending ungate timeout (the one held in
`micGateTimeoutRef`), then gate the microphone and mark output active. -/
def gateMicrophone (s : VS) : VS :=
  let timers := match s.refTimer with
    | some id => s.timers.filter (fun t => t ≠ id)
    | none => s.timers
  { s with timers := timers, refTimer := none,
           micGated := true, outputActive := true }

/-- `releaseMicrophone`: mark output inactive and schedule a delayed ungate.
The source stores the new timeout id in `micGateTimeoutRef` without clearing
a previously stored one, so an existing timer stays scheduled (orphaned). -/
def releaseMicrophone (s : VS) : VS :=
  { s with outputActive := false,
           timers := s.timers ++ [s.nextId],
           refTimer := some s.nextId,
           nextId := s.nextId + 1 }

/-- The body of the `setTimeout` callback scheduled by `releaseMicrophone`:
ungate, null out `micGateTimeoutRef`, and perform a pending transition when
`autoResumeListening` is set.  Timers fire in creation order (they all share
`postSpeechDelay`), so the head of the queue fires. -/
def fireTimer (cfg : Config) (s : VS) : VS :=
  match s.timers with
  | [] => s
  | _ :: rest =>
    let s1 := { s with timers := rest, micGated := false, refTimer := none }
    match s1.pending with
    | some p =>
      if cfg.autoResumeListening then
        { s1 with session := p, pending := none }
      else s1
    | none => s1

/-- `transitionTo` from `useVoiceSession.ts`: queue the request while locked,
validate against the adjacency table, gate on entering `speaking`, release on
leaving `speaking` (recording `listening` as pending instead of switching). -/
def transitionTo (newState : SState) (s : VS) : VS :=
  if s.locked then { s with pending := some newState }
  else if ¬ validTransition s.session newState then s
  else if newState = speaking then
    let s1 := gateMicrophone s
    { s1 with session := speaking }
  else if s.session = speaking then
    let s1 := releaseMicrophone s
    if newState = listening then { s1 with pending := some listening }
    else { s1 with session := newState }
  else { s with session := newState }

/-- `resetSession`: clear the referenced timeout, pending request and lock,
ungate and return to idle.  Only the timeout held in `micGateTimeoutRef` is
cleared; orphaned timers stay scheduled. -/
def resetSession (s : VS) : VS :=
  let timers := match s.refTimer with
    | some id => s.timers.filter (fun t => t ≠ id)
    | none => s.timers
  { session := idle, micGated := false, outputActive := false,
    pending := none, locked := false, timers := timers, refTimer := none,
    nextId := s.nextId }

/-- `canStartListening`: not gated, no active output, and not speaking. -/
def canStartListening (s : VS) : Bool :=
  ¬ s.micGated && ¬ s.outputActive && s.session ≠ speaking

/-- External events of the coordinator: a `transitionTo` request, the firing
of the earliest scheduled release timeout, and `resetSession`. -/
inductive Event
  | trans (t : SState)
  | fire
  | reset
deriving DecidableEq, Repr

/-- One event step of the coordinator. -/
def step (cfg : Config) (s : VS) : Event → VS
  | .trans t => transitionTo t s
  | .fire => fireTimer cfg s
  | .reset => resetSession s

/-- Run the coordinator from the initial state over a list of events. -/
def run (cfg : Config) (es : List Event) : VS :=
  es.foldl (step cfg) initVS

/-- Event trace that leaves the coordinator speaking with the microphone
ungated, with the configuration used by `Home.tsx` (`autoResumeListening:
true`): two `speaking → listening` requests schedule two release timeouts but
only the second is tracked by `micGateTimeoutRef`; the first timeout fires
and nulls the shared ref, so entering `speaking` again cannot cancel the
second timeout, which then ungates the microphone mid-speech. -/
def c1Trace : List Event :=
  [.trans listening, .trans speaking, .trans listening, .trans listening,
   .fire, .trans speaking, .fire]

/-- Trace for C2's counterexample, under the hook's default configuration
(`autoResumeListening := false`): request `speaking → listening`, then let
the delayed release fire. -/
def c2Trace : List Event :=
  [.trans listening, .trans speaking, .trans listening, .fire]

end VoiceSession

/-! ## Recognition engine (`src/hooks/useStableSpeechRecognition.ts`, v2.0) -/

namespace SpeechRec

open JsStr

/-- Configuration of the recognition hook: platform classification (from
`isMobileDevice`) and the `continuous` option. -/
structure Config where
  isMobile : Bool
  continuous : Bool
deriving DecidableEq, Repr

/-- The mutable refs and React state of the hook.  `initialized` models
whether `recognitionRef.current` holds an engine instance (false when the
platform has no capture capability), `silenceTimerSet` whether a silence
timeout is currently scheduled, and `restarting` whether a restart callback
is scheduled. -/
structure Rec where
  transcript : Str
  finalT : Str
  lastProcessed : Str
  gated : Bool
  isListening : Bool
  startRequested : Bool
  shouldRestart : Bool
  restarting : Bool
  silenceTimerSet : Bool
  initialized : Bool
deriving DecidableEq, Repr

/-- Descending search of the desktop overlap loop: the largest `i` between
`words.length` and `1` such that the first `i` words of the new segment are a
suffix of the current buffer. -/
def findOverlapGo (currentRef : Str) (words : List Str) : Nat → Option Nat
  | 0 => none
  | i + 1 =>
    if (jsJoin ' ' (words.take (i + 1))).isSuffixOf currentRef then
      some (i + 1)
    else findOverlapGo currentRef words i

/-- Entry point of the overlap loop (`for (let i = words.length; i > 0; i--)`). -/
def findOverlap (currentRef : Str) (words : List Str) : Option Nat :=
  findOverlapGo currentRef words words.length

/-- Desktop transcript assembly, strategies A/B/C of `recognition.onresult`:
extension detection, overlap detection (suffix search word by word), first
result.  Returns the new value of `finalTranscriptRef`. -/
def desktopAssemble (finalT finalSeg : Str) : Str :=
  let cleanNew := trim finalSeg
  let currentRef := trim finalT
  if (currentRef.map Char.toLower).isPrefixOf (cleanNew.map Char.toLower)
      && !currentRef.isEmpty then
    cleanNew
  else if !currentRef.isEmpty && !cleanNew.isEmpty then
    if cleanNew.isSuffixOf currentRef then finalT
    else
      let words := jsSplit ' ' cleanNew
      match findOverlap currentRef words with
      | some i =>
        let remaining := jsJoin ' ' (words.drop i)
        finalT ++ (if !remaining.isEmpty then ' ' :: remaining else [])
      | none => finalT ++ (if !finalT.isEmpty then [' '] else []) ++ cleanNew
  else if currentRef.isEmpty then cleanNew
  else finalT

/-- The silence-timer section at the end of `recognition.onresult`: the old
timeout is cleared and a new one is armed exactly when the trimmed final
buffer is non-empty. -/
def armSilence (s : Rec) : Rec :=
  { s with silenceTimerSet := !(trim s.finalT).isEmpty }

/-- `recognition.onresult`, given the concatenated final and interim segments
of the event: discard while gated; on mobile use the replace strategy with
hard deduplication (an exact duplicate returns early, skipping the timer
section); on desktop assemble with overlap resolution and publish the
interim-extended transcript. -/
def onResultEvent (cfg : Config) (s : Rec) (finalSeg interim : Str) : Rec :=
  if s.gated then s
  else if cfg.isMobile then
    if !finalSeg.isEmpty then
      let cleanNew := trim finalSeg
      if cleanNew = s.lastProcessed then s
      else armSilence { s with finalT := cleanNew, transcript := cleanNew }
    else armSilence s
  else
    let s1 :=
      if !finalSeg.isEmpty then { s with finalT := desktopAssemble s.finalT finalSeg }
      else s
    let currentTranscript :=
      s1.finalT ++ (if !interim.isEmpty then ' ' :: interim else [])
    armSilence { s1 with transcript := currentTranscript }

/-- The silence-timeout callback: deliver the trimmed buffer unless it is a
duplicate of the last delivered utterance, empty, or the microphone is
gated; on delivery record it in `lastProcessedRef` and clear the buffer. -/
def silenceFire (s : Rec) : Rec × Option Str :=
  if !s.silenceTimerSet then (s, none)
  else
    let s0 := { s with silenceTimerSet := false }
    let full := trim s0.finalT
    if full = s0.lastProcessed then (s0, none)
    else if !full.isEmpty && !s0.gated then
      ({ s0 with lastProcessed := full, finalT := [], transcript := [] },
       some full)
    else (s0, none)

/-- Shared tail of `recognition.onend`: flush any remaining non-duplicate
transcript, then clear the buffer. -/
def onEndFlush (s : Rec) : Rec × Option Str :=
  if !(trim s.finalT).isEmpty && !s.gated then
    let full := trim s.finalT
    if full ≠ s.lastProcessed then
      ({ s with lastProcessed := full, finalT := [] }, some full)
    else ({ s with finalT := [] }, none)
  else (s, none)

/-- `recognition.onend`: on mobile, never restart, flush the remainder; on
desktop, schedule a restart (and return early) when continuous restart is
still wanted and the microphone is not gated, otherwise clear the silence
timer and flush the remainder. -/
def onEndEvent (cfg : Config) (s : Rec) : Rec × Option Str :=
  if cfg.isMobile then
    let (s2, out) := onEndFlush { s with isListening := false }
    ({ s2 with startRequested := false }, out)
  else if s.shouldRestart && !s.restarting && !s.gated then
    ({ s with restarting := true }, none)
  else
    let (s2, out) :=
      onEndFlush { s with isListening := false, silenceTimerSet := false }
    ({ s2 with startRequested := false }, out)

/-- The scheduled restart callback (~100 ms backoff): restart the engine if
still wanted and not gated (on failure, stop); always clear the
restart-in-progress flag. -/
def restartFire (s : Rec) (startOk : Bool) : Rec :=
  if !s.restarting then s
  else
    let s1 :=
      if s.shouldRestart && !s.gated then
        if startOk then s
        else { s with isListening := false, shouldRestart := false }
      else { s with isListening := false }
    { s1 with restarting := false }

/-- `recognition.onerror`: `no-speech` and `aborted` are ignored; any other
error stops listening and disables continuous restart (the message is
surfaced through the error callback, not the result callback). -/
def onErrorEvent (s : Rec) (fatal : Bool) : Rec :=
  if !fatal then s
  else { s with isListening := false, shouldRestart := false,
                startRequested := false }

/-- `recognition.onstart`. -/
def onStartEvent (s : Rec) : Rec :=
  { s with isListening := true, startRequested := false }

/-- `stopListeningInternal`: cancel restart and pending start, clear the
silence timer, halt capture. -/
def stopListeningInternal (s : Rec) : Rec :=
  { s with shouldRestart := false, startRequested := false,
           silenceTimerSet := false, isListening := false }

/-- Effect of a change of the external `isGated` prop: record it, and stop
capture when the gate turns on while actively listening. -/
def setGated (s : Rec) (b : Bool) : Rec :=
  let wasGated := s.gated
  let s1 := { s with gated := b }
  if !wasGated && b && s1.isListening then stopListeningInternal s1 else s1

/-- Result of the underlying `recognition.start()` call: success, the
"already started" exception, or any other exception. -/
inductive StartOutcome
  | ok
  | alreadyStarted
  | failed
deriving DecidableEq, Repr

/-- `startListening`: refuse while gated or without an engine instance;
treat an active or in-flight session as success without side effects;
otherwise clear transcript and deduplication state, enable continuous
restart (desktop only) and start the engine. -/
def startListening (cfg : Config) (s : Rec) (o : StartOutcome) : Rec × Bool :=
  if s.gated then (s, false)
  else if !s.initialized then (s, false)
  else if s.isListening then (s, true)
  else if s.startRequested then (s, true)
  else
    let s1 := { s with transcript := [], finalT := [], lastProcessed := [],
                       shouldRestart := cfg.continuous && !cfg.isMobile,
                       startRequested := true }
    match o with
    | .ok => (s1, true)
    | .alreadyStarted =>
      ({ s1 with startRequested := false, isListening := true }, true)
    | .failed => ({ s1 with startRequested := false }, false)

/-- Capture events processed within one listening session. -/
inductive CEvent
  | result (finalSeg interim : Str)
  | silence
  | ended
  | restart (startOk : Bool)
  | error (fatal : Bool)
  | gate (b : Bool)
  | started
deriving DecidableEq, Repr

/-- One capture event step, returning the new state and the utterance
delivered to the result callback, if any. -/
def stepEmit (cfg : Config) (s : Rec) : CEvent → Rec × Option Str
  | .result f i => (onResultEvent cfg s f i, none)
  | .silence => silenceFire s
  | .ended => onEndEvent cfg s
  | .restart ok => (restartFire s ok, none)
  | .error fatal => (onErrorEvent s fatal, none)
  | .gate b => (setGated s b, none)
  | .started => (onStartEvent s, none)

/-- All utterances delivered to the result callback along a run of capture
events. -/
def emitRun (cfg : Config) (s : Rec) : List CEvent → List Str
  | [] => []
  | e :: es =>
    match stepEmit cfg s e with
    | (s1, none) => emitRun cfg s1 es
    | (s1, some t) => t :: emitRun cfg s1 es

/-- State of the hook right after a successful `startListening` and engine
`onstart`, with capture capability present and the microphone ungated. -/
def freshRec (cfg : Config) : Rec :=
  { transcript := [], finalT := [], lastProcessed := [], gated := false,
    isListening := true, startRequested := false,
    shouldRestart := cfg.continuous && !cfg.isMobile, restarting := false,
    silenceTimerSet := false, initialized := true }

/-- State of the hook before any start: capture capability present,
microphone ungated, nothing in flight. -/
def idleRec : Rec :=
  { transcript := [], finalT := [], lastProcessed := [], gated := false,
    isListening := false, startRequested := false, shouldRestart := false,
    restarting := false, silenceTimerSet := false, initialized := true }

/-- Desktop configuration in continuous mode, as `Home.tsx` uses it. -/
def desktopCfg : Config := { isMobile := false, continuous := true }

/-- Mobile configuration (continuous capture is disabled on mobile). -/
def mobileCfg : Config := { isMobile := true, continuous := true }

end SpeechRec

/-! ## Synthesis engine (`src/hooks/useStableSpeechSynthesis.ts`) -/

namespace Synth

open JsStr

/-- `SpeechChunk` from the source. -/
structure SpeechChunk where
  text : Str
  index : Nat
deriving DecidableEq, Repr

/-- `MAX_CHUNK_LENGTH`: maximum characters per chunk. -/
def MAX_CHUNK_LENGTH : Nat := 150

/-- The cut-point computation of one `chunkText` loop iteration.  The
floating-point thresholds of the source are exact here:
`MAX_CHUNK_LENGTH * 0.5 = 75` and `MAX_CHUNK_LENGTH * 0.3` rounds to the
double `45.0`, so `idx > threshold` means `idx ≥ 76` resp. `idx ≥ 46`. -/
def chunkEndFor (remaining : Str) : Nat :=
  if remaining.length > MAX_CHUNK_LENGTH then
    let sentenceEnd := jsLastIndexOf remaining '.' MAX_CHUNK_LENGTH
    let comma := jsLastIndexOf remaining ',' MAX_CHUNK_LENGTH
    let space := jsLastIndexOf remaining ' ' MAX_CHUNK_LENGTH
    if idxGt sentenceEnd 75 then sentenceEnd.getD 0 + 1
    else if idxGt comma 75 then comma.getD 0 + 1
    else if idxGt space 45 then space.getD 0 + 1
    else MAX_CHUNK_LENGTH
  else remaining.length

/-- The `while (remaining.length > 0)` loop of `chunkText`: slice up to the
cut point, trim, keep non-empty chunks, and continue on the trimmed rest. -/
def chunkLoop (remaining : Str) (index : Nat) : List SpeechChunk :=
  if hr : remaining.length = 0 then []
  else
    let chunkEnd := chunkEndFor remaining
    let c := trim (remaining.take chunkEnd)
    let rest := trim (remaining.drop chunkEnd)
    if c.isEmpty then chunkLoop rest index
    else ⟨c, index⟩ :: chunkLoop rest (index + 1)
termination_by remaining.length
decreasing_by
  all_goals
    show (trim (remaining.drop (chunkEndFor remaining))).length < remaining.length
  all_goals
    have hend : 1 ≤ chunkEndFor remaining := by
      unfold chunkEndFor
      dsimp only
      repeat' split
      all_goals first
        | omega
        | decide
  all_goals
    have htrim : (trim (remaining.drop (chunkEndFor remaining))).length ≤
        (remaining.drop (chunkEndFor remaining)).length := by
      unfold trim dropRightWs
      calc ((((remaining.drop (chunkEndFor remaining)).dropWhile
                isWs).reverse.dropWhile isWs).reverse).length
          ≤ (((remaining.drop (chunkEndFor remaining)).dropWhile
                isWs).reverse).length := by
            rw [List.length_reverse]
            exact (List.dropWhile_sublist isWs).length_le
        _ ≤ (remaining.drop (chunkEndFor remaining)).length := by
            rw [List.length_reverse]
            exact (List.dropWhile_sublist isWs).length_le
  all_goals
    have hdrop : (remaining.drop (chunkEndFor remaining)).length =
        remaining.length - chunkEndFor remaining := List.length_drop _ _
  all_goals omega

/-- `chunkText`: a short text is one chunk; otherwise run the slicing loop. -/
def chunkText (text : Str) : List SpeechChunk :=
  if text.length ≤ MAX_CHUNK_LENGTH then [⟨text, 0⟩]
  else chunkLoop text 0

/-- Callbacks observable from `speak`. -/
inductive Cb
  | onStart
  | onEnd
  | onError (msg : String)
deriving DecidableEq, Repr

/-- The refs and React state of the synthesis hook that the speak/stop
lifecycle touches. -/
structure SY where
  aborted : Bool
  isSpeaking : Bool
  progress : ℚ
  speakingText : Str
  chunks : List SpeechChunk
  currentChunk : Nat
  resumeInterval : Bool
  retryCount : Nat
deriving DecidableEq, Repr

/-- Idle synthesis state. -/
def initSY : SY :=
  { aborted := false, isSpeaking := false, progress := 0, speakingText := [],
    chunks := [], currentChunk := 0, resumeInterval := false,
    retryCount := 0 }

/-- `cleanup`: stop the resume interval, forget the chunk queue — and reset
the aborted flag. -/
def cleanup (s : SY) : SY :=
  { s with resumeInterval := false, chunks := [], currentChunk := 0,
           aborted := false }

/-- `stop`: set the aborted flag, cancel platform synthesis, `cleanup` (which
resets the aborted flag again), stop speaking, zero progress. -/
def stop (s : SY) : SY :=
  let s1 := { s with aborted := true }
  let s2 := cleanup s1
  { s2 with isSpeaking := false, progress := 0, speakingText := [] }

/-- What happens to the chunk in flight during one loop iteration of
`speak`: the platform finishes it, the caller invokes `stop()` mid-chunk
(the platform then reports `interrupted`, surfaced as the `aborted`
rejection), `stop()` arrives during the inter-chunk pause, or the platform
reports a non-abort error. -/
inductive Att
  | fine
  | stoppedDuring
  | stoppedInPause
  | errorDuring (msg : String)
deriving DecidableEq, Repr

/-- `MAX_RETRIES` per-speak retry budget for failed chunks. -/
def MAX_RETRIES : Nat := 2

/-- The `for` loop inside `speak` over the chunk list, driven by one `Att`
outcome per iteration (the attempt list is the external schedule; when it is
exhausted the run is cut off and proceeds to the `finally` block, which only
under-approximates the set of complete runs). Returns the state after the
loop together with the error of a fatal chunk failure, if any. -/
def speakLoop (total : Nat) (chunks : List SpeechChunk) (i : Nat) (s : SY) :
    List Att → SY × Option String
  | [] => (s, none)
  | a :: atts =>
    if h : i < chunks.length then
      if s.aborted then (s, none)
      else
        let s0 := { s with currentChunk := i }
        match a with
        | .fine =>
          let c := chunks.get ⟨i, h⟩
          let s1 := { s0 with progress := ((c.index + 1 : ℚ) / total) * 100 }
          speakLoop total chunks (i + 1) s1 atts
        | .stoppedDuring =>
          -- stop() runs, then the in-flight utterance rejects as aborted,
          -- which breaks out of the loop
          (stop s0, none)
        | .stoppedInPause =>
          -- the chunk completes, stop() runs during the CHUNK_PAUSE_MS wait,
          -- and the loop continues with the next index
          let c := chunks.get ⟨i, h⟩
          let s1 := { s0 with progress := ((c.index + 1 : ℚ) / total) * 100 }
          speakLoop total chunks (i + 1) (stop s1) atts
        | .errorDuring msg =>
          if s0.retryCount < MAX_RETRIES then
            speakLoop total chunks i
              { s0 with retryCount := s0.retryCount + 1 } atts
          else (s0, some msg)
    else (s, none)

/-- The `finally` block of `speak`: `cleanup` (resetting the aborted flag),
stop speaking, set progress to 100 — and only then test the aborted flag to
decide whether `onEnd` fires. -/
def speakFinally (s : SY) : SY × List Cb :=
  let s1 := cleanup s
  let s2 := { s1 with isSpeaking := false, progress := 100,
                      speakingText := [] }
  if !s2.aborted then (s2, [Cb.onEnd]) else (s2, [])

/-- `speak(text)`: refuse unsupported platforms and empty/whitespace-only
text before any observable effect; otherwise cancel and clean up, chunk the
text, raise `isSpeaking`, fire `onStart`, run the chunk loop, fire `onError`
on a fatal chunk failure, and run the `finally` block. -/
def speak (supported : Bool) (s : SY) (text : Str) (atts : List Att) :
    SY × List Cb :=
  if !supported || (trim text).isEmpty then (s, [])
  else
    let s1 := cleanup s
    let s2 := { s1 with speakingText := text, aborted := false,
                        retryCount := 0, progress := 0 }
    let chunks := chunkText text
    let s3 := { s2 with chunks := chunks, currentChunk := 0,
                        isSpeaking := true }
    let (s4, err) := speakLoop chunks.length chunks 0 s3 atts
    let errCbs := match err with
      | some msg => [Cb.onError msg]
      | none => []
    let (s5, endCbs) := speakFinally s4
    (s5, Cb.onStart :: (errCbs ++ endCbs))

/-- A 500-character punctuation-free input (100 repetitions of `"word "`),
used to witness the chunking claim. -/
def w500 : Str := (List.replicate 100 ("word ".toList)).flatten

/-- The text `l` consists of the given chunks in order, interleaved only
with whitespace (the whitespace collapsed at the cut points): used to state
that concatenating the chunks reproduces the content of the input. -/
inductive Reassembles : Str → List Str → Prop
  | nil (w : Str) : JsStr.wsOnly w = true → Reassembles w []
  | cons (w c l : Str) (cs : List Str) :
      JsStr.wsOnly w = true → Reassembles l cs →
      Reassembles (w ++ c ++ l) (c :: cs)

end Synth

/-! ## Regeneration (`src/pages/Chat.tsx` `handleRetry` and the chat edge
function's temperature rule) -/

namespace ChatRetry

/-- Message roles as stored by the chat persistence layer. -/
inductive DbRole
  | user
  | ai
deriving DecidableEq, Repr

/-- A stored chat message. -/
structure DbMessage where
  role : DbRole
  content : String
deriving DecidableEq, Repr

/-- Roles of the chat-completion request body. -/
inductive AIRole
  | user
  | assistant
deriving DecidableEq, Repr

/-- A chat-completion request message. -/
structure AIMessage where
  role : AIRole
  content : String
deriving DecidableEq, Repr

/-- The role/content mapping used when building `conversationHistory`
(`m.role === 'user' ? 'user' : 'assistant'`). -/
def toAIMessage (m : DbMessage) : AIMessage :=
  { role := match m.role with
      | .user => AIRole.user
      | .ai => AIRole.assistant,
    content := m.content }

/-- The indexed loop of `handleRetry`: push every message except the one at
index `length - 1` when its role is `ai`. -/
def retryHistoryGo (len : Nat) : Nat → List DbMessage → List AIMessage
  | _, [] => []
  | i, m :: rest =>
    if i = len - 1 ∧ m.role = DbRole.ai then retryHistoryGo len (i + 1) rest
    else toAIMessage m :: retryHistoryGo len (i + 1) rest

/-- The conversation history submitted by a regenerate call. -/
def retryHistory (msgs : List DbMessage) : List AIMessage :=
  retryHistoryGo msgs.length 0 msgs

/-- The temperature override `handleRetry` passes to `streamChat` (0.9). -/
def retryTemperature : ℚ := 9 / 10

/-- The edge function's effective temperature:
`Math.min(tempOverride ?? 0.8, 0.9)`. -/
def serverTemperature (tempOverride : Option ℚ) : ℚ :=
  min (tempOverride.getD (8 / 10)) (9 / 10)

end ChatRetry

/-! ## Theorems about the session coordinator -/

namespace VoiceSession

open SState

/-- The transition lock is never taken anywhere in the source (it is only
ever cleared), so it is false in every reachable state. -/
theorem locked_false (cfg : Config) (es : List Event) :
    (run cfg es).locked = false := by
  suffices h : ∀ s : VS, s.locked = false →
      ∀ es : List Event, (es.foldl (step cfg) s).locked = false by
    exact h initVS rfl es
  intro s hs es
  induction es generalizing s with
  | nil => exact hs
  | cons e rest ih =>
    refine ih _ ?_
    cases e with
    | trans t =>
      simp only [step, transitionTo]
      repeat' split
      all_goals simp_all [gateMicrophone, releaseMicrophone]
    | fire =>
      simp only [step, fireTimer]
      repeat' split
      all_goals simp_all
    | reset => rfl

/-- C1: the microphone-gate invariant fails on the code: after `c1Trace`
(realisable in real time: the second release request and the re-entry into
`speaking` both fall inside a 400 ms window), the session state is
`speaking` while `isMicGated` is false, because `releaseMicrophone` never
clears the previously scheduled timeout and the timeout callback nulls
`micGateTimeoutRef` unconditionally. -/
theorem micGate_invariant_violated :
    (run { autoResumeListening := true } c1Trace).session = speaking ∧
    (run { autoResumeListening := true } c1Trace).micGated = false := by
  constructor <;> rfl

/-- C2 counterexample: with the source's default configuration
(`autoResumeListening = false`), after `speaking → listening` is requested
the delayed release fires (the timer queue is empty again) yet the pending
transition is never performed: the state is still `speaking`, not
`listening`. -/
theorem pending_transition_not_performed_default :
    (run { autoResumeListening := false } c2Trace).session = speaking ∧
    (run { autoResumeListening := false } c2Trace).pending = some listening ∧
    (run { autoResumeListening := false } c2Trace).timers = [] := by
  refine ⟨rfl, rfl, rfl⟩

/-- C2 (amended): in a reachable state that is `speaking` with no release
timeout pending, requesting `transitionTo listening` with
`autoResumeListening` enabled keeps the observable state `speaking` (a
release timeout is now scheduled and the request is recorded as pending),
and when the delayed release fires the transition to `listening` is
performed. -/
theorem speaking_to_listening_deferred (es : List Event)
    (h1 : (run { autoResumeListening := true } es).session = speaking)
    (h2 : (run { autoResumeListening := true } es).timers = []) :
    let s := run { autoResumeListening := true } es
    let s1 := transitionTo listening s
    s1.session = speaking ∧ s1.pending = some listening ∧
    s1.timers = [s.nextId] ∧
    (fireTimer { autoResumeListening := true } s1).session = listening ∧
    (fireTimer { autoResumeListening := true } s1).pending = none := by
  intro s s1
  have hl : s.locked = false := locked_false _ es
  have h1s : s.session = speaking := h1
  have h2s : s.timers = [] := h2
  have hs1 : s1 = { s with outputActive := false,
                           timers := s.timers ++ [s.nextId],
                           refTimer := some s.nextId,
                           nextId := s.nextId + 1,
                           pending := some listening } := by
    show transitionTo listening s = _
    simp [transitionTo, hl, h1s, validTransition, releaseMicrophone]
  rw [hs1, h2s]
  refine ⟨h1s, rfl, by simp, ?_, ?_⟩ <;> simp [fireTimer]

/-- Witness for the amended C2 theorem at the concrete reachable state
obtained by `idle → listening → speaking`. -/
theorem speaking_to_listening_deferred_witness :
    (run { autoResumeListening := true }
        [.trans listening, .trans speaking]).session = speaking ∧
    (transitionTo listening
        (run { autoResumeListening := true }
          [.trans listening, .trans speaking])).session = speaking ∧
    (fireTimer { autoResumeListening := true }
        (transitionTo listening
          (run { autoResumeListening := true }
            [.trans listening, .trans speaking]))).session = listening := by
  have h := speaking_to_listening_deferred
    [.trans listening, .trans speaking] (by rfl) (by rfl)
  exact ⟨by rfl, h.1, h.2.2.2.1⟩

/-- C4: `transitionTo` leaves the whole state unchanged whenever the
requested pair is not in the fixed adjacency table (in every reachable
state; the transition lock is never taken, so the early queueing branch is
dead). -/
theorem invalid_transition_rejected (cfg : Config) (es : List Event)
    (t : SState)
    (h : validTransition (run cfg es).session t = false) :
    transitionTo t (run cfg es) = run cfg es := by
  have hl : (run cfg es).locked = false := locked_false cfg es
  simp only [transitionTo, hl, h]
  simp

/-- Witness for C4: from the initial state (`idle`), requesting `speaking`
directly is not in the table and the state is unchanged. -/
theorem invalid_transition_rejected_witness :
    validTransition (run { autoResumeListening := true } []).session
      speaking = false ∧
    transitionTo speaking (run { autoResumeListening := true } []) =
      run { autoResumeListening := true } [] := by
  exact ⟨by rfl,
    invalid_transition_rejected { autoResumeListening := true } [] speaking
      (by rfl)⟩

end VoiceSession

/-! ## String-primitive lemmas -/

namespace JsStr

theorem trim_length_le (l : Str) : (trim l).length ≤ l.length := by
  unfold trim dropRightWs
  calc (((l.dropWhile isWs).reverse.dropWhile isWs).reverse).length
      ≤ ((l.dropWhile isWs).reverse).length := by
        rw [List.length_reverse]
        exact (List.dropWhile_sublist isWs).length_le
    _ ≤ l.length := by
        rw [List.length_reverse]
        exact (List.dropWhile_sublist isWs).length_le

theorem mem_of_mem_trim {a : Char} {l : Str} (h : a ∈ trim l) : a ∈ l := by
  unfold trim dropRightWs at h
  rw [List.mem_reverse] at h
  have h2 := (List.dropWhile_sublist isWs).mem h
  rw [List.mem_reverse] at h2
  exact (List.dropWhile_sublist isWs).mem h2

theorem trim_wsOnly_false {l : Str} (h : trim l ≠ []) :
    wsOnly (trim l) = false := by
  unfold trim dropRightWs at *
  rcases hxe : (l.dropWhile isWs).reverse.dropWhile isWs with _ | ⟨a, t⟩
  · rw [hxe] at h
    simp at h
  · have hhead := List.head?_dropWhile_not isWs (l.dropWhile isWs).reverse
    rw [hxe] at hhead
    simp only [List.head?_cons] at hhead
    unfold wsOnly
    rw [List.all_reverse]
    simp [hhead]

theorem trim_decomp (l : Str) :
    ∃ w1 w2 : Str, wsOnly w1 = true ∧ wsOnly w2 = true ∧
      l = w1 ++ trim l ++ w2 := by
  refine ⟨l.takeWhile isWs, ((l.dropWhile isWs).reverse.takeWhile isWs).reverse,
    ?_, ?_, ?_⟩
  · unfold wsOnly
    rw [List.all_eq_true]
    intro x hx
    exact List.mem_takeWhile_imp hx
  · unfold wsOnly
    rw [List.all_reverse, List.all_eq_true]
    intro x hx
    exact List.mem_takeWhile_imp hx
  · unfold trim dropRightWs
    conv_lhs => rw [← List.takeWhile_append_dropWhile isWs l]
    rw [List.append_assoc]
    congr 1
    conv_lhs => rw [← List.reverse_reverse (l.dropWhile isWs)]
    conv_lhs => rw [← List.takeWhile_append_dropWhile isWs (l.dropWhile isWs).reverse]
    rw [List.reverse_append]

theorem trim_lt_of_getLast_ws {l : Str} {c : Char}
    (h1 : l.getLast? = some c) (h2 : isWs c = true) :
    (trim l).length < l.length := by
  have hl : l ≠ [] := by rintro rfl; simp at h1
  unfold trim dropRightWs
  by_cases hm : l.dropWhile isWs = []
  · simp only [hm, List.reverse_nil, List.dropWhile_nil, List.length_nil]
    exact List.length_pos.mpr hl
  · have hmne : l.dropWhile isWs ≠ [] := hm
    have hlast : (l.dropWhile isWs).getLast? = some c := by
      conv_lhs at h1 => rw [← List.takeWhile_append_dropWhile isWs l]
      rwa [List.getLast?_append_of_ne_nil _ hmne] at h1
    have hhead : (l.dropWhile isWs).reverse.head? = some c := by
      rw [List.head?_reverse]
      exact hlast
    rcases hrev : (l.dropWhile isWs).reverse with _ | ⟨b, tb⟩
    · rw [hrev] at hhead; simp at hhead
    · rw [hrev] at hhead
      simp only [List.head?_cons, Option.some.injEq] at hhead
      subst hhead
      rw [List.dropWhile_cons_of_pos h2]
      have hlen1 : (List.dropWhile isWs tb).length ≤ tb.length :=
        (List.dropWhile_sublist isWs).length_le
      have hlen2 : tb.length + 1 = (l.dropWhile isWs).length := by
        have := congrArg List.length hrev
        simp only [List.length_reverse, List.length_cons] at this
        omega
      have hlen3 : (l.dropWhile isWs).length ≤ l.length :=
        (List.dropWhile_sublist isWs).length_le
      rw [List.length_reverse]
      omega

theorem lastIdxIn_spec {l : Str} {c : Char} {i : Nat}
    (h : lastIdxIn l c = some i) : i < l.length ∧ l[i]? = some c := by
  induction l generalizing i with
  | nil => simp [lastIdxIn] at h
  | cons a t ih =>
    rw [lastIdxIn] at h
    rcases ht : lastIdxIn t c with _ | j
    · rw [ht] at h
      simp only at h
      split at h
      · rename_i hac
        cases h
        simp [hac]
      · cases h
    · rw [ht] at h
      simp only [Option.some.injEq] at h
      subst h
      obtain ⟨h1, h2⟩ := ih ht
      constructor
      · simp; omega
      · simpa using h2

theorem lastIdxIn_eq_none {l : Str} {c : Char} (h : c ∉ l) :
    lastIdxIn l c = none := by
  induction l with
  | nil => rfl
  | cons a t ih =>
    rw [lastIdxIn, ih (fun hm => h (List.mem_cons_of_mem a hm))]
    simp only
    rw [if_neg]
    intro hac
    exact h (hac ▸ List.mem_cons_self a t)

theorem jsLastIndexOf_spec {l : Str} {c : Char} {f i : Nat}
    (h : jsLastIndexOf l c f = some i) :
    i ≤ f ∧ i < l.length ∧ l[i]? = some c := by
  obtain ⟨h1, h2⟩ := lastIdxIn_spec h
  rw [List.length_take] at h1
  refine ⟨by omega, by omega, ?_⟩
  rw [List.getElem?_take] at h2
  split at h2
  · exact h2
  · cases h2

theorem jsLastIndexOf_eq_none {l : Str} {c : Char} {f : Nat} (h : c ∉ l) :
    jsLastIndexOf l c f = none := by
  apply lastIdxIn_eq_none
  intro hm
  exact h ((List.take_sublist _ _).mem hm)

end JsStr

/-! ## Theorems about the synthesis speak/stop lifecycle -/

namespace Synth

open JsStr

theorem idxGt_true_iff {o : Option Nat} {n : Nat} :
    idxGt o n = true ↔ ∃ i, o = some i ∧ n < i := by
  cases o <;> simp [idxGt]

theorem chunkEndFor_no_punct {remaining : Str}
    (hd : ('.' : Char) ∉ remaining) (hc : (',' : Char) ∉ remaining) :
    chunkEndFor remaining ≤ MAX_CHUNK_LENGTH ∨
    ∃ i, jsLastIndexOf remaining ' ' MAX_CHUNK_LENGTH = some i ∧ 45 < i ∧
      chunkEndFor remaining = i + 1 := by
  unfold chunkEndFor
  dsimp only
  rw [jsLastIndexOf_eq_none hd, jsLastIndexOf_eq_none hc]
  split
  · split
    · rename_i h
      rw [idxGt_true_iff] at h
      obtain ⟨i, hi, -⟩ := h
      cases hi
    · split
      · rename_i h
        rw [idxGt_true_iff] at h
        obtain ⟨i, hi, h45⟩ := h
        right
        refine ⟨i, hi, h45, ?_⟩
        rw [hi]
        rfl
      · left
        exact Nat.le_refl _
  · left
    omega

theorem chunkEndFor_chunk_le {remaining : Str}
    (hd : ('.' : Char) ∉ remaining) (hc : (',' : Char) ∉ remaining) :
    (trim (remaining.take (chunkEndFor remaining))).length ≤
      MAX_CHUNK_LENGTH := by
  rcases chunkEndFor_no_punct hd hc with h | ⟨i, hi, h45, he⟩
  · calc (trim (remaining.take (chunkEndFor remaining))).length
        ≤ (remaining.take (chunkEndFor remaining)).length := trim_length_le _
      _ ≤ chunkEndFor remaining := by rw [List.length_take]; omega
      _ ≤ MAX_CHUNK_LENGTH := h
  · obtain ⟨hif, hilen, hget⟩ := jsLastIndexOf_spec hi
    rw [he]
    have htake_len : (remaining.take (i + 1)).length = i + 1 := by
      rw [List.length_take]; omega
    have hlast : (remaining.take (i + 1)).getLast? = some ' ' := by
      rw [List.getLast?_eq_getElem?, htake_len]
      simp only [Nat.add_sub_cancel]
      rw [List.getElem?_take]
      simp only [Nat.lt_succ_self, if_pos]
      exact hget
    have hlt := trim_lt_of_getLast_ws hlast (by decide)
    rw [htake_len] at hlt
    have hM : MAX_CHUNK_LENGTH = 150 := rfl
    omega

theorem chunkEndFor_pos {remaining : Str} (hr : remaining.length ≠ 0) :
    1 ≤ chunkEndFor remaining := by
  unfold chunkEndFor
  dsimp only
  repeat' split
  all_goals first
    | omega
    | decide

theorem chunkLoop_rest_len {remaining : Str} {n : Nat}
    (hr : remaining.length ≠ 0) (hn : remaining.length ≤ n + 1) :
    (trim (remaining.drop (chunkEndFor remaining))).length ≤ n := by
  have hend := chunkEndFor_pos hr
  have h1 := trim_length_le (remaining.drop (chunkEndFor remaining))
  have h2 : (remaining.drop (chunkEndFor remaining)).length =
      remaining.length - chunkEndFor remaining := List.length_drop _ _
  omega

theorem chunkLoop_length_le (n : Nat) :
    ∀ (remaining : Str) (index : Nat), remaining.length ≤ n →
      ('.' : Char) ∉ remaining → (',' : Char) ∉ remaining →
      ∀ ch ∈ chunkLoop remaining index, ch.text.length ≤ MAX_CHUNK_LENGTH := by
  induction n with
  | zero =>
    intro remaining index hn _ _ ch hch
    have h0 : remaining.length = 0 := by omega
    rw [chunkLoop, dif_pos h0] at hch
    cases hch
  | succ n ih =>
    intro remaining index hn hd hc ch hch
    by_cases hr : remaining.length = 0
    · rw [chunkLoop, dif_pos hr] at hch
      cases hch
    · rw [chunkLoop, dif_neg hr] at hch
      dsimp only at hch
      have hrest_d :
          ('.' : Char) ∉ trim (remaining.drop (chunkEndFor remaining)) := by
        intro hm
        exact hd ((List.drop_sublist _ _).mem (mem_of_mem_trim hm))
      have hrest_c :
          (',' : Char) ∉ trim (remaining.drop (chunkEndFor remaining)) := by
        intro hm
        exact hc ((List.drop_sublist _ _).mem (mem_of_mem_trim hm))
      have hrest_len := chunkLoop_rest_len hr hn
      by_cases hce :
          (trim (remaining.take (chunkEndFor remaining))).isEmpty = true
      · rw [if_pos hce] at hch
        exact ih _ index hrest_len hrest_d hrest_c ch hch
      · rw [if_neg hce] at hch
        rw [List.mem_cons] at hch
        rcases hch with hch | hch
        · subst hch
          exact chunkEndFor_chunk_le hd hc
        · exact ih _ (index + 1) hrest_len hrest_d hrest_c ch hch

theorem reassembles_append_ws {l w : Str} {cs : List Str}
    (h : Reassembles l cs) (hw : wsOnly w = true) :
    Reassembles (l ++ w) cs := by
  induction h with
  | nil w1 hw1 =>
    refine Reassembles.nil _ ?_
    unfold wsOnly at *
    rw [List.all_append, hw1, hw]
    rfl
  | cons w1 c l1 cs1 hw1 h1 ih =>
    have h2 := Reassembles.cons w1 c (l1 ++ w) cs1 hw1 ih
    simpa [List.append_assoc] using h2

theorem reassembles_ws_append {l w : Str} {cs : List Str}
    (hw : wsOnly w = true) (h : Reassembles l cs) :
    Reassembles (w ++ l) cs := by
  cases h with
  | nil w1 hw1 =>
    refine Reassembles.nil _ ?_
    unfold wsOnly at *
    rw [List.all_append, hw1, hw]
    rfl
  | cons w1 c l1 cs1 hw1 h1 =>
    have hww : wsOnly (w ++ w1) = true := by
      unfold wsOnly at *
      rw [List.all_append, hw1, hw]
      rfl
    have h2 := Reassembles.cons (w ++ w1) c l1 cs1 hww h1
    simpa [List.append_assoc] using h2

theorem chunkLoop_reassembles (n : Nat) :
    ∀ (remaining : Str) (index : Nat), remaining.length ≤ n →
      Reassembles remaining
        ((chunkLoop remaining index).map SpeechChunk.text) := by
  induction n with
  | zero =>
    intro remaining index hn
    have h0 : remaining.length = 0 := by omega
    rw [chunkLoop, dif_pos h0]
    rw [List.length_eq_zero] at h0
    subst h0
    exact Reassembles.nil [] rfl
  | succ n ih =>
    intro remaining index hn
    by_cases hr : remaining.length = 0
    · rw [chunkLoop, dif_pos hr]
      rw [List.length_eq_zero] at hr
      subst hr
      exact Reassembles.nil [] rfl
    · rw [chunkLoop, dif_neg hr]
      dsimp only
      have hrest_len := chunkLoop_rest_len hr hn
      obtain ⟨w1, w2, hw1, hw2, hde1⟩ :=
        trim_decomp (remaining.take (chunkEndFor remaining))
      obtain ⟨w3, w4, hw3, hw4, hde2⟩ :=
        trim_decomp (remaining.drop (chunkEndFor remaining))
      have hsplit : remaining =
          remaining.take (chunkEndFor remaining) ++
          remaining.drop (chunkEndFor remaining) :=
        (List.take_append_drop _ _).symm
      by_cases hce :
          (trim (remaining.take (chunkEndFor remaining))).isEmpty = true
      · rw [if_pos hce]
        have base : Reassembles (remaining.drop (chunkEndFor remaining))
            ((chunkLoop (trim (remaining.drop (chunkEndFor remaining)))
              index).map SpeechChunk.text) := by
          have b1 := reassembles_ws_append hw3
            (reassembles_append_ws (ih _ index hrest_len) hw4)
          rw [← List.append_assoc, ← hde2] at b1
          exact b1
        have b2 := reassembles_ws_append hw1 (reassembles_ws_append hw2 base)
        have heq : remaining =
            w1 ++ (w2 ++ remaining.drop (chunkEndFor remaining)) := by
          rw [List.isEmpty_iff] at hce
          rw [hce] at hde1
          conv_lhs => rw [hsplit, hde1]
          simp [List.append_assoc]
        rw [← heq] at b2
        exact b2
      · rw [if_neg hce]
        have base : Reassembles (remaining.drop (chunkEndFor remaining))
            ((chunkLoop (trim (remaining.drop (chunkEndFor remaining)))
              (index + 1)).map SpeechChunk.text) := by
          have b1 := reassembles_ws_append hw3
            (reassembles_append_ws (ih _ (index + 1) hrest_len) hw4)
          rw [← List.append_assoc, ← hde2] at b1
          exact b1
        have h3 := Reassembles.cons w1
          (trim (remaining.take (chunkEndFor remaining)))
          (w2 ++ remaining.drop (chunkEndFor remaining)) _ hw1
          (reassembles_ws_append hw2 base)
        have heq : remaining =
            w1 ++ trim (remaining.take (chunkEndFor remaining)) ++
              (w2 ++ remaining.drop (chunkEndFor remaining)) := by
          conv_lhs => rw [hsplit, hde1]
          simp [List.append_assoc]
        rw [← heq] at h3
        rw [List.map_cons]
        exact h3

/-- C7: for every input with no punctuation (no `.` and no `,`), every chunk
produced by `chunkText` has length at most `MAX_CHUNK_LENGTH` (150), and the
chunks concatenate — with whitespace collapsed at the cut points — back to
content equivalent to the original input. -/
theorem chunkText_bounded_and_reassembles (text : Str)
    (hd : ('.' : Char) ∉ text) (hc : (',' : Char) ∉ text) :
    (∀ ch ∈ chunkText text, ch.text.length ≤ MAX_CHUNK_LENGTH) ∧
    Reassembles text ((chunkText text).map SpeechChunk.text) := by
  unfold chunkText
  split
  · rename_i hlen
    constructor
    · intro ch hch
      rw [List.mem_singleton] at hch
      subst hch
      exact hlen
    · simp only [List.map_cons, List.map_nil]
      have h := Reassembles.cons [] text [] [] rfl (Reassembles.nil [] rfl)
      simpa using h
  · constructor
    · exact chunkLoop_length_le text.length text 0 (Nat.le_refl _) hd hc
    · exact chunkLoop_reassembles text.length text 0 (Nat.le_refl _)

set_option maxRecDepth 10000 in
/-- Witness for C7 at the concrete 500-character punctuation-free input
`w500`. -/
theorem chunkText_bounded_and_reassembles_witness :
    w500.length = 500 ∧ ('.' : Char) ∉ w500 ∧ (',' : Char) ∉ w500 ∧
    (∀ ch ∈ chunkText w500, ch.text.length ≤ MAX_CHUNK_LENGTH) ∧
    Reassembles w500 ((chunkText w500).map SpeechChunk.text) := by
  have h := chunkText_bounded_and_reassembles w500 (by decide) (by decide)
  exact ⟨by decide, by decide, by decide, h.1, h.2⟩

/-- C5: the abort flag does not suppress the completion callback.  First, the
`finally` block of `speak` always fires `onEnd`, because it calls `cleanup`
(which resets `abortedRef` to `false`) before testing the flag.  Second, in
the concrete run where `stop()` arrives while the only chunk of
`speak "hello world"` is in flight, the observable callbacks are
`[onStart, onEnd]`: `onEnd` fires from the aborted run, contradicting the
specified behaviour. -/
theorem stop_does_not_suppress_onEnd :
    (∀ s : SY, (speakFinally s).2 = [Cb.onEnd]) ∧
    (speak true initSY ("hello world".toList) [Att.stoppedDuring]).2 =
      [Cb.onStart, Cb.onEnd] := by
  constructor
  · intro s
    rfl
  · rfl

/-- C10: `speak` returns before any observable effect when synthesis is
unsupported or the text is empty or whitespace-only: the state (including
`isSpeaking` and `progress`) is unchanged and no callback fires. -/
theorem speak_rejects_blank (supported : Bool) (s : SY) (text : Str)
    (atts : List Att)
    (h : supported = false ∨ (JsStr.trim text).isEmpty = true) :
    speak supported s text atts = (s, []) := by
  unfold speak
  rcases h with h | h <;> simp [h]

/-- Witness for C10 at a whitespace-only input. -/
theorem speak_rejects_blank_witness :
    (JsStr.trim ("   ".toList)).isEmpty = true ∧
    speak true initSY ("   ".toList) [] = (initSY, []) := by
  exact ⟨by decide,
    speak_rejects_blank true initSY ("   ".toList) [] (Or.inr (by decide))⟩

end Synth

/-! ## Theorems about regeneration -/

namespace ChatRetry

/-- The loop of `handleRetry` keeps every message of the history except the
final one when that one is an assistant message. -/
theorem retryHistoryGo_append_ai (msgs : List DbMessage) (m : DbMessage)
    (hm : m.role = DbRole.ai) :
    ∀ (len i : Nat), i + msgs.length + 1 = len →
      retryHistoryGo len i (msgs ++ [m]) = msgs.map toAIMessage := by
  induction msgs with
  | nil =>
    intro len i hlen
    simp only [List.length_nil] at hlen
    simp only [List.nil_append, retryHistoryGo, List.map_nil]
    have hi : i = len - 1 := by omega
    simp [hi, hm, retryHistoryGo]
  | cons a as ih =>
    intro len i hlen
    simp only [List.length_cons] at hlen
    simp only [List.cons_append, retryHistoryGo, List.map_cons]
    have hne : ¬(i = len - 1 ∧ a.role = DbRole.ai) := by
      rintro ⟨h1, -⟩
      omega
    rw [if_neg hne]
    congr 1
    exact ih len (i + 1) (by omega)

/-- C9: for every history whose last entry is an assistant message, a
regenerate call submits exactly the history with that entry excluded, and its
temperature override (0.9) elevates the effective temperature above the
endpoint's default (0.8). -/
theorem regenerate_excludes_last_assistant (msgs : List DbMessage)
    (m : DbMessage) (hm : m.role = DbRole.ai) :
    retryHistory (msgs ++ [m]) = msgs.map toAIMessage ∧
    serverTemperature (some retryTemperature) > serverTemperature none := by
  refine ⟨?_, by norm_num [serverTemperature, retryTemperature]⟩
  unfold retryHistory
  exact retryHistoryGo_append_ai msgs m hm _ 0 (by simp)

/-- Witness for C9 on the history `[user: A, assistant: B]`. -/
theorem regenerate_excludes_last_assistant_witness :
    retryHistory [⟨DbRole.user, "A"⟩, ⟨DbRole.ai, "B"⟩] =
      [⟨AIRole.user, "A"⟩] := by
  have h := regenerate_excludes_last_assistant [⟨DbRole.user, "A"⟩]
    ⟨DbRole.ai, "B"⟩ rfl
  simpa [toAIMessage] using h.1

end ChatRetry

/-! ## Theorems about the recognition engine -/

namespace SpeechRec

open JsStr

/-- `recognition.onresult` never touches the deduplication register. -/
theorem onResultEvent_lastProcessed (cfg : Config) (s : Rec)
    (f i : Str) : (onResultEvent cfg s f i).lastProcessed = s.lastProcessed := by
  unfold onResultEvent armSilence
  dsimp only
  repeat' split
  all_goals rfl

/-- The restart callback never touches the deduplication register. -/
theorem restartFire_lastProcessed (s : Rec) (ok : Bool) :
    (restartFire s ok).lastProcessed = s.lastProcessed := by
  unfold restartFire
  dsimp only
  repeat' split
  all_goals rfl

/-- `recognition.onerror` never touches the deduplication register. -/
theorem onErrorEvent_lastProcessed (s : Rec) (fatal : Bool) :
    (onErrorEvent s fatal).lastProcessed = s.lastProcessed := by
  unfold onErrorEvent
  repeat' split
  all_goals rfl

/-- Changes of the gate signal never touch the deduplication register. -/
theorem setGated_lastProcessed (s : Rec) (b : Bool) :
    (setGated s b).lastProcessed = s.lastProcessed := by
  unfold setGated stopListeningInternal
  dsimp only
  repeat' split
  all_goals rfl

/-- `recognition.onstart` never touches the deduplication register. -/
theorem onStartEvent_lastProcessed (s : Rec) :
    (onStartEvent s).lastProcessed = s.lastProcessed := rfl

/-- The silence-timeout callback delivers only trimmed, non-empty,
non-duplicate text, records it in the deduplication register, and otherwise
leaves the register unchanged. -/
theorem silenceFire_spec (s : Rec) :
    (∀ s1, silenceFire s = (s1, none) → s1.lastProcessed = s.lastProcessed) ∧
    (∀ s1 t, silenceFire s = (s1, some t) →
      t ≠ s.lastProcessed ∧ s1.lastProcessed = t ∧ t ≠ [] ∧
      wsOnly t = false) := by
  constructor
  · intro s1 h
    unfold silenceFire at h
    dsimp only at h
    split at h
    · injection h with h1 h2
      subst h1
      rfl
    · split at h
      · injection h with h1 h2
        subst h1
        rfl
      · split at h
        · injection h with h1 h2
          cases h2
        · injection h with h1 h2
          subst h1
          rfl
  · intro s1 t h
    unfold silenceFire at h
    dsimp only at h
    split at h
    · injection h with h1 h2
      cases h2
    · split at h
      · injection h with h1 h2
        cases h2
      · split at h
        · rename_i hne hcond
          injection h with h1 h2
          injection h2 with h2
          subst h2
          subst h1
          rw [Bool.and_eq_true, Bool.not_eq_true'] at hcond
          have htne : trim s.finalT ≠ [] := by
            intro hnil
            rw [hnil] at hcond
            simp at hcond
          exact ⟨hne, rfl, htne, trim_wsOnly_false htne⟩
        · injection h with h1 h2
          cases h2

/-- The flush shared by the two `onend` paths delivers only trimmed,
non-empty, non-duplicate text, records it, and otherwise leaves the
deduplication register unchanged. -/
theorem onEndFlush_spec (s : Rec) :
    (∀ s1, onEndFlush s = (s1, none) → s1.lastProcessed = s.lastProcessed) ∧
    (∀ s1 t, onEndFlush s = (s1, some t) →
      t ≠ s.lastProcessed ∧ s1.lastProcessed = t ∧ t ≠ [] ∧
      wsOnly t = false) := by
  constructor
  · intro s1 h
    unfold onEndFlush at h
    dsimp only at h
    split at h
    · split at h
      · injection h with h1 h2
        cases h2
      · injection h with h1 h2
        subst h1
        rfl
    · injection h with h1 h2
      subst h1
      rfl
  · intro s1 t h
    unfold onEndFlush at h
    dsimp only at h
    split at h
    · rename_i hcond
      rw [Bool.and_eq_true, Bool.not_eq_true'] at hcond
      have htne : trim s.finalT ≠ [] := by
        intro hnil
        have := hcond.1
        rw [hnil] at this
        simp at this
      split at h
      · rename_i hne
        injection h with h1 h2
        injection h2 with h2
        subst h2
        subst h1
        exact ⟨hne, rfl, htne, trim_wsOnly_false htne⟩
      · injection h with h1 h2
        cases h2
    · injection h with h1 h2
      cases h2

/-- `recognition.onend` delivers only trimmed, non-empty, non-duplicate
text, records it, and otherwise leaves the deduplication register
unchanged. -/
theorem onEndEvent_spec (cfg : Config) (s : Rec) :
    (∀ s1, onEndEvent cfg s = (s1, none) →
      s1.lastProcessed = s.lastProcessed) ∧
    (∀ s1 t, onEndEvent cfg s = (s1, some t) →
      t ≠ s.lastProcessed ∧ s1.lastProcessed = t ∧ t ≠ [] ∧
      wsOnly t = false) := by
  constructor
  · intro s1 h
    unfold onEndEvent at h
    dsimp only at h
    split at h
    · rcases hf : onEndFlush { s with isListening := false } with ⟨s2, o⟩
      rw [hf] at h
      dsimp only at h
      cases o with
      | none =>
        injection h with h1 h2
        subst h1
        exact (onEndFlush_spec { s with isListening := false }).1 s2 hf

      | some t =>
        injection h with h1 h2
        cases h2
    · split at h
      · injection h with h1 h2
        subst h1
        rfl
      · rcases hf : onEndFlush { s with isListening := false, silenceTimerSet := false } with ⟨s2, o⟩
        rw [hf] at h
        dsimp only at h
        cases o with
        | none =>
          injection h with h1 h2
          subst h1
          exact (onEndFlush_spec
            { s with isListening := false, silenceTimerSet := false }).1 s2 hf

        | some t =>
          injection h with h1 h2
          cases h2
  · intro s1 t h
    unfold onEndEvent at h
    dsimp only at h
    split at h
    · rcases hf : onEndFlush { s with isListening := false } with ⟨s2, o⟩
      rw [hf] at h
      dsimp only at h
      cases o with
      | none =>
        injection h with h1 h2
        cases h2
      | some t2 =>
        injection h with h1 h2
        injection h2 with h2
        subst h1
        obtain ⟨hA, hB, hC, hD⟩ :=
          (onEndFlush_spec { s with isListening := false }).2 s2 t2 hf
        exact h2 ▸ ⟨hA, hB, hC, hD⟩
    · split at h
      · injection h with h1 h2
        cases h2
      · rcases hf : onEndFlush { s with isListening := false, silenceTimerSet := false } with ⟨s2, o⟩
        rw [hf] at h
        dsimp only at h
        cases o with
        | none =>
          injection h with h1 h2
          cases h2
        | some t2 =>
          injection h with h1 h2
          injection h2 with h2
          subst h1
          obtain ⟨hA, hB, hC, hD⟩ := (onEndFlush_spec
            { s with isListening := false, silenceTimerSet := false }).2 s2 t2 hf
          exact h2 ▸ ⟨hA, hB, hC, hD⟩

/-- One capture event with no delivery leaves the deduplication register
unchanged; one with a delivery emits trimmed, non-empty, non-duplicate text
and records it. -/
theorem stepEmit_spec (cfg : Config) (s : Rec) (e : CEvent) :
    (∀ s1, stepEmit cfg s e = (s1, none) →
      s1.lastProcessed = s.lastProcessed) ∧
    (∀ s1 t, stepEmit cfg s e = (s1, some t) →
      t ≠ s.lastProcessed ∧ s1.lastProcessed = t ∧ t ≠ [] ∧
      wsOnly t = false) := by
  cases e with
  | result f i =>
    constructor
    · intro s1 h
      injection h with h1 h2
      subst h1
      exact onResultEvent_lastProcessed cfg s f i
    · intro s1 t h
      injection h with h1 h2
      cases h2
  | silence => exact silenceFire_spec s
  | ended => exact onEndEvent_spec cfg s
  | restart ok =>
    constructor
    · intro s1 h
      injection h with h1 h2
      subst h1
      exact restartFire_lastProcessed s ok
    · intro s1 t h
      injection h with h1 h2
      cases h2
  | error fatal =>
    constructor
    · intro s1 h
      injection h with h1 h2
      subst h1
      exact onErrorEvent_lastProcessed s fatal
    · intro s1 t h
      injection h with h1 h2
      cases h2
  | gate b =>
    constructor
    · intro s1 h
      injection h with h1 h2
      subst h1
      exact setGated_lastProcessed s b
    · intro s1 t h
      injection h with h1 h2
      cases h2
  | started =>
    constructor
    · intro s1 h
      injection h with h1 h2
      subst h1
      rfl
    · intro s1 t h
      injection h with h1 h2
      cases h2

/-- Unfolding `emitRun` over one event that delivers nothing. -/
theorem emitRun_cons_none {cfg : Config} {s s1 : Rec} {e : CEvent}
    {es : List CEvent} (h : stepEmit cfg s e = (s1, none)) :
    emitRun cfg s (e :: es) = emitRun cfg s1 es := by
  rw [emitRun, h]

/-- Unfolding `emitRun` over one event that delivers an utterance. -/
theorem emitRun_cons_some {cfg : Config} {s s1 : Rec} {e : CEvent}
    {es : List CEvent} {t : Str} (h : stepEmit cfg s e = (s1, some t)) :
    emitRun cfg s (e :: es) = t :: emitRun cfg s1 es := by
  rw [emitRun, h]

/-- Along any run of capture events, the deduplication register followed by
the delivered utterances forms a chain of pairwise-distinct neighbours. -/
theorem emitRun_chain_aux (cfg : Config) :
    ∀ (es : List CEvent) (s : Rec),
      List.Chain' (fun a b => a ≠ b) (s.lastProcessed :: emitRun cfg s es) := by
  intro es
  induction es with
  | nil =>
    intro s
    simp [emitRun]
  | cons e rest ih =>
    intro s
    rcases hstep : stepEmit cfg s e with ⟨s1, o⟩
    cases o with
    | none =>
      rw [emitRun_cons_none hstep]
      have hlp := (stepEmit_spec cfg s e).1 s1 hstep
      have h2 := ih s1
      rwa [hlp] at h2
    | some t =>
      rw [emitRun_cons_some hstep]
      obtain ⟨hne, hlp, -, -⟩ := (stepEmit_spec cfg s e).2 s1 t hstep
      rw [List.chain'_cons]
      refine ⟨fun hEq => hne hEq.symm, ?_⟩
      have h2 := ih s1
      rwa [hlp] at h2

/-- Along any run of capture events, every delivered utterance is trimmed
non-empty text. -/
theorem emitRun_all_nonblank (cfg : Config) :
    ∀ (es : List CEvent) (s : Rec), ∀ t ∈ emitRun cfg s es,
      t ≠ [] ∧ wsOnly t = false := by
  intro es
  induction es with
  | nil =>
    intro s t ht
    simp [emitRun] at ht
  | cons e rest ih =>
    intro s t ht
    rcases hstep : stepEmit cfg s e with ⟨s1, o⟩
    cases o with
    | none =>
      rw [emitRun_cons_none hstep] at ht
      exact ih s1 t ht
    | some u =>
      rw [emitRun_cons_some hstep, List.mem_cons] at ht
      rcases ht with ht | ht
      · obtain ⟨-, -, h3, h4⟩ := (stepEmit_spec cfg s e).2 s1 u hstep
        exact ht ▸ ⟨h3, h4⟩
      · exact ih s1 t ht

/-- C3: along every run of capture events, text delivered to the result
callback is never empty or whitespace-only and the same text is never
delivered twice in direct succession; concretely, feeding the final segment
"hello" twice (with silence timeouts) yields exactly one delivered
utterance, on desktop and on mobile alike. -/
theorem utterances_nonblank_and_deduped (cfg : Config) (s : Rec)
    (es : List CEvent) :
    List.Chain' (fun a b => a ≠ b) (emitRun cfg s es) ∧
    (∀ t ∈ emitRun cfg s es, t ≠ [] ∧ wsOnly t = false) ∧
    emitRun desktopCfg (freshRec desktopCfg)
      [.result ("hello".toList) [], .silence,
       .result ("hello".toList) [], .silence] = ["hello".toList] ∧
    emitRun mobileCfg (freshRec mobileCfg)
      [.result ("hello".toList) [], .silence,
       .result ("hello".toList) [], .silence] = ["hello".toList] := by
  refine ⟨(emitRun_chain_aux cfg es s).tail, emitRun_all_nonblank cfg es s,
    by decide, by decide⟩

/-- C8: under the desktop overlap strategy, feeding the final segment
"turn on the" and then "the lights please" into an empty buffer yields the
single merged buffer "turn on the lights please", with no duplicated
"the". -/
theorem desktop_overlap_merges :
    (onResultEvent desktopCfg
      (onResultEvent desktopCfg (freshRec desktopCfg)
        ("turn on the".toList) [])
      ("the lights please".toList) []).finalT =
      "turn on the lights please".toList ∧
    (onResultEvent desktopCfg
      (onResultEvent desktopCfg (freshRec desktopCfg)
        ("turn on the".toList) [])
      ("the lights please".toList) []).transcript =
      "turn on the lights please".toList := by
  constructor <;> decide

/-- C6 counterexample: with a start already in flight (`startRequested` is
set, the engine has not yet fired `onstart`), a second `startListening`
returns `true` — not `false` as claimed — and performs no side effect. -/
theorem startListening_inflight_returns_true :
    ((startListening desktopCfg idleRec StartOutcome.ok).1.startRequested
      = true) ∧
    ((startListening desktopCfg idleRec StartOutcome.ok).1.isListening
      = false) ∧
    startListening desktopCfg
      (startListening desktopCfg idleRec StartOutcome.ok).1
      StartOutcome.ok =
      ((startListening desktopCfg idleRec StartOutcome.ok).1, true) := by
  refine ⟨rfl, rfl, rfl⟩

/-- C6 (amended): `startListening` returns `false` when the microphone is
gated or no capture capability is present; when already listening or a start
is already in flight it returns `true` without side effects; otherwise it
clears the transcript and deduplication state, enables continuous restart
(desktop only), marks the start in flight and begins capture. -/
theorem startListening_spec (cfg : Config) (s : Rec) (o : StartOutcome) :
    (s.gated = true → startListening cfg s o = (s, false)) ∧
    (s.gated = false → s.initialized = false →
      startListening cfg s o = (s, false)) ∧
    (s.gated = false → s.initialized = true →
      s.isListening = true ∨ s.startRequested = true →
      startListening cfg s o = (s, true)) ∧
    (s.gated = false → s.initialized = true → s.isListening = false →
      s.startRequested = false → o = StartOutcome.ok →
      startListening cfg s o =
        ({ s with transcript := [], finalT := [], lastProcessed := [],
                  shouldRestart := cfg.continuous && !cfg.isMobile,
                  startRequested := true }, true)) := by
  refine ⟨?_, ?_, ?_, ?_⟩
  · intro hg
    unfold startListening
    simp [hg]
  · intro hg hi
    unfold startListening
    simp [hg, hi]
  · intro hg hi hl
    unfold startListening
    rcases hl with hl | hl
    · simp [hg, hi, hl]
    · by_cases hl2 : s.isListening = true
      · simp [hg, hi, hl2]
      · simp only [Bool.not_eq_true] at hl2
        simp [hg, hi, hl2, hl]
  · intro hg hi hl hsr ho
    subst ho
    unfold startListening
    simp [hg, hi, hl, hsr]

/-- Witness for the amended C6 at concrete states: refused while gated,
and a fresh start from the idle state clears state and reports success. -/
theorem startListening_spec_witness :
    startListening desktopCfg { idleRec with gated := true }
      StartOutcome.ok = ({ idleRec with gated := true }, false) ∧
    startListening desktopCfg idleRec StartOutcome.ok =
      ({ idleRec with transcript := [], finalT := [], lastProcessed := [],
                      shouldRestart := true, startRequested := true },
       true) := by
  constructor
  · exact (startListening_spec desktopCfg
      { idleRec with gated := true } StartOutcome.ok).1 rfl
  · exact (startListening_spec desktopCfg idleRec StartOutcome.ok).2.2.2
      rfl rfl rfl rfl rfl

end SpeechRec
